import Mathlib

/-!
Verification development for the Extract2MD converter
(`src/Extract2MD/src/extract2md.d.ts`, which inlines `Extract2MDConverter.js`).

The embedding models strings as `List Char` (Lean `String` at the interface).
JavaScript regular-expression semantics are embedded only for the exact
pattern shapes the source uses:
* `/[class]/g → r`   : every character of the class is replaced by `r`;
* `/[class]+/g → r`  : every maximal run of class characters becomes `r`;
* `String.replace(stringPattern, r)` : only the FIRST occurrence is replaced
  (JavaScript semantics for a plain-string `find`);
* the two camel/Pascal-case splitting regexes with replacement `"$1 $2"`;
* `/\r\n/g → "\n"`, `/\n{2,}/g → "\n\n"`, `/\n{3,}/g → "\n\n"`.

JavaScript `\s` (and `String.prototype.trim`) is the set modelled by `jsWs`.
String lengths are modelled as code-point counts (the source uses UTF-16
units; the two agree on all inputs considered here, which lie in the BMP).
-/

namespace Extract2MD

/-- The JavaScript `\s` character class (which is also exactly the set of
characters removed by `String.prototype.trim`): tab, LF, VT, FF, CR, space,
NBSP, U+1680, U+2000–U+200A, U+2028, U+2029, U+202F, U+205F, U+3000, U+FEFF. -/
def jsWs (c : Char) : Bool :=
  c.toNat = 0x09 || c.toNat = 0x0A || c.toNat = 0x0B || c.toNat = 0x0C ||
  c.toNat = 0x0D || c.toNat = 0x20 || c.toNat = 0xA0 || c.toNat = 0x1680 ||
  (0x2000 ≤ c.toNat && c.toNat ≤ 0x200A) || c.toNat = 0x2028 ||
  c.toNat = 0x2029 || c.toNat = 0x202F || c.toNat = 0x205F ||
  c.toNat = 0x3000 || c.toNat = 0xFEFF

/-- `String.prototype.trimStart` (drop leading JS whitespace). -/
def trimStartL (l : List Char) : List Char := l.dropWhile jsWs

/-- `String.prototype.trimEnd` (drop trailing JS whitespace). -/
def trimEndL (l : List Char) : List Char := (l.reverse.dropWhile jsWs).reverse

/-- `String.prototype.trim`. -/
def jsTrimL (l : List Char) : List Char := trimStartL (trimEndL l)

/-- `String.prototype.trim` on `String`. -/
def jsTrimStr (s : String) : String := String.mk (jsTrimL s.data)

/-- Replacement of every maximal run of `p`-characters by `rep`:
the JS global replace `/[class]+/g → rep`. -/
def collapseRuns (p : Char → Bool) (rep : List Char) : List Char → List Char
  | [] => []
  | [c] => if p c then rep else [c]
  | a :: b :: t =>
      if p a && p b then collapseRuns p rep (b :: t)
      else if p a then rep ++ collapseRuns p rep (b :: t)
      else a :: collapseRuns p rep (b :: t)

/-- JS `String.replace` with a plain-string pattern: replaces only the
FIRST occurrence of `pat` (assumed nonempty) in the subject. -/
def strReplaceFirst (pat rep : List Char) : List Char → List Char
  | [] => []
  | c :: cs =>
      if pat.isPrefixOf (c :: cs) then rep ++ (c :: cs).drop pat.length
      else c :: strReplaceFirst pat rep cs

/-- ASCII uppercase letter, i.e. the JS character class `[A-Z]`. -/
def isUpperAscii (c : Char) : Bool := 0x41 ≤ c.toNat && c.toNat ≤ 0x5A

/-- ASCII lowercase letter, i.e. the JS character class `[a-z]`. -/
def isLowerAscii (c : Char) : Bool := 0x61 ≤ c.toNat && c.toNat ≤ 0x7A

/-- ASCII digit, i.e. the JS character class `\d`. -/
def isDigitAscii (c : Char) : Bool := 0x30 ≤ c.toNat && c.toNat ≤ 0x39

/-- JS word character `\w` = `[A-Za-z0-9_]`. -/
def isWordChar (c : Char) : Bool :=
  isUpperAscii c || isLowerAscii c || isDigitAscii c || c = '_'

/-- Greedy match of `([A-Z][a-z]+)([A-Z][a-z]+)` at the head of the input:
returns the two groups and the rest of the input.  The greedy `[a-z]+` is
the only possible split (backtracking cannot help since the second group
must start with an uppercase letter). -/
def matchUU (l : List Char) : Option (List Char × List Char × List Char) :=
  match l with
  | [] => none
  | c1 :: t1 =>
      if isUpperAscii c1 then
        let ls1 := t1.takeWhile isLowerAscii
        if ls1 = [] then none
        else
          match t1.dropWhile isLowerAscii with
          | [] => none
          | c2 :: t2 =>
              if isUpperAscii c2 then
                let ls2 := t2.takeWhile isLowerAscii
                if ls2 = [] then none
                else some (c1 :: ls1, c2 :: ls2, t2.dropWhile isLowerAscii)
              else none
      else none

/-- Greedy match of `([a-z])([A-Z][a-z]+)` at the head of the input. -/
def matchLU (l : List Char) : Option (List Char × List Char × List Char) :=
  match l with
  | c1 :: c2 :: t2 =>
      if isLowerAscii c1 && isUpperAscii c2 then
        let ls2 := t2.takeWhile isLowerAscii
        if ls2 = [] then none
        else some ([c1], c2 :: ls2, t2.dropWhile isLowerAscii)
      else none
  | _ => none

/-- One global-replace scan for `/([A-Z][a-z]+)([A-Z][a-z]+)/g → "$1 $2"`:
leftmost match, then continue after the match (fuelled so that the
definition is structurally recursive; fuel = input length suffices since
every step consumes at least one character). -/
def pascalUUFuel : Nat → List Char → List Char
  | 0, l => l
  | _ + 1, [] => []
  | fuel + 1, c :: cs =>
      match matchUU (c :: cs) with
      | some (g1, g2, rest) => g1 ++ ' ' :: g2 ++ pascalUUFuel fuel rest
      | none => c :: pascalUUFuel fuel cs

/-- `/([A-Z][a-z]+)([A-Z][a-z]+)/g → "$1 $2"` (global replace). -/
def pascalUU (l : List Char) : List Char := pascalUUFuel l.length l

/-- One global-replace scan for `/([a-z])([A-Z][a-z]+)/g → "$1 $2"`. -/
def pascalLUFuel : Nat → List Char → List Char
  | 0, l => l
  | _ + 1, [] => []
  | fuel + 1, c :: cs =>
      match matchLU (c :: cs) with
      | some (g1, g2, rest) => g1 ++ ' ' :: g2 ++ pascalLUFuel fuel rest
      | none => c :: pascalLUFuel fuel cs

/-- `/([a-z])([A-Z][a-z]+)/g → "$1 $2"` (global replace). -/
def pascalLU (l : List Char) : List Char := pascalLUFuel l.length l

/-- The `find` patterns occurring in the converter's post-processing rules. -/
inductive FindPat where
  | charClass (cs : List Char)
  | wsRun
  | plainStr (s : String)
  | splitUpperUpper
  | splitLowerUpper
deriving DecidableEq

/-- A post-processing rule `{ find, replace }` (source: `PostProcessRule`). -/
structure PostRule where
  find : FindPat
  replace : String
deriving DecidableEq

/-- `cleanedText.replace(rule.find, rule.replace)` for one rule, including
the source's guard `if (rule.find && typeof rule.replace === 'string')`:
a plain-string `find` that is the empty string is falsy in JS, so the rule
is skipped; every other modelled `find` is truthy and `replace` is always
a string here. -/
def applyRule (r : PostRule) (l : List Char) : List Char :=
  match r.find with
  | FindPat.charClass cs => l.flatMap (fun c => if cs.contains c then r.replace.data else [c])
  | FindPat.wsRun => collapseRuns jsWs r.replace.data l
  | FindPat.plainStr s => if s = "" then l else strReplaceFirst s.data r.replace.data l
  | FindPat.splitUpperUpper => pascalUU l
  | FindPat.splitLowerUpper => pascalLU l

/-- The rule loop of `_postProcessText`: each rule scans the whole current
text in turn. -/
def applyRules (rs : List PostRule) (l : List Char) : List Char :=
  rs.foldl (fun acc r => applyRule r acc) l

/-- The ten single-character-class built-in rules, in source order:
ligatures, smart quotes, bullets, dashes, soft hyphen. -/
def charRules : List PostRule :=
  [ ⟨FindPat.charClass ['ﬀ'], "ff"⟩,
    ⟨FindPat.charClass ['ﬁ'], "fi"⟩,
    ⟨FindPat.charClass ['ﬂ'], "fl"⟩,
    ⟨FindPat.charClass ['ﬃ'], "ffi"⟩,
    ⟨FindPat.charClass ['ﬄ'], "ffl"⟩,
    ⟨FindPat.charClass ['‘', '’'], "'"⟩,
    ⟨FindPat.charClass ['“', '”'], "\""⟩,
    ⟨FindPat.charClass ['•', '‣', '◦', '⁃', '∙',
                        '●', '○', '⦁', '☙', '❥'], "-"⟩,
    ⟨FindPat.charClass ['–', '—'], "-"⟩,
    ⟨FindPat.charClass ['­'], ""⟩ ]

/-- The fixed built-in rules (`this.defaultPostProcessRules` before the
optional `splitPascalCase` push), in source order: the ten
single-character-class rules followed by the whitespace collapse. -/
def baseRules : List PostRule := charRules ++ [⟨FindPat.wsRun, " "⟩]

/-- The three word-splitting rules pushed when `splitPascalCase` is set. -/
def splitRules : List PostRule :=
  [ ⟨FindPat.splitUpperUpper, "$1 $2"⟩,
    ⟨FindPat.splitLowerUpper, "$1 $2"⟩,
    ⟨FindPat.splitUpperUpper, "$1 $2"⟩ ]

/-- `this.defaultPostProcessRules` as built by the constructor: the split
rules, when enabled, are PUSHED ONTO the built-in list (so they precede any
caller-supplied rules). -/
def defaultPostProcessRules (splitPascalCase : Bool) : List PostRule :=
  baseRules ++ (if splitPascalCase then splitRules else [])

/-- The converter configuration relevant to the modelled behaviour. -/
structure ConverterConfig where
  splitPascalCase : Bool := false
  postProcessRules : List PostRule := []
  llmModelLibUrl : Option String := none
deriving DecidableEq

/-- `_postProcessText` on `List Char` (the non-empty-text path): build the
rule list `[...default, ...custom, ...additional]`, apply each in order,
then `trim`. -/
def postProcessTextL (cfg : ConverterConfig) (additional : List PostRule)
    (text : List Char) : List Char :=
  jsTrimL (applyRules
    (defaultPostProcessRules cfg.splitPascalCase ++ cfg.postProcessRules ++ additional) text)

/-- `_postProcessText(text, additionalRules)`, including the
`if (!text) return ''` guard. -/
def postProcessText (cfg : ConverterConfig) (text : String)
    (additional : List PostRule) : String :=
  if text = "" then "" else String.mk (postProcessTextL cfg additional text.data)

/-! ## The structural reconstructor `_convertToMarkdownLogic` -/

/-- `rawText.split(/\n/)`. -/
def splitNl : List Char → List (List Char)
  | [] => [[]]
  | c :: cs =>
      if c = '\n' then [] :: splitNl cs
      else
        match splitNl cs with
        | h :: t => (c :: h) :: t
        | [] => [[c]]

/-- `Array.prototype.join('\n')` / `Array.prototype.join(' ')` (below):
join a list of lines with a single separator character. -/
def joinSep (sep : Char) : List (List Char) → List Char
  | [] => []
  | [x] => x
  | x :: xs => x ++ sep :: joinSep sep xs

/-- `/\n{3,}/g → "\n\n"` (and also `/\n{2,}/g → "\n\n"`: a run of exactly two
newlines is replaced by itself, so both regexes collapse every run of
newlines of length ≥ 2 to exactly two — extensionally the same function,
namely: drop newlines so that no run of length ≥ 3 remains). -/
def collapseNl : List Char → List Char
  | a :: b :: c :: t =>
      if a = '\n' && b = '\n' && c = '\n' then collapseNl (b :: c :: t)
      else a :: collapseNl (b :: c :: t)
  | l => l

/-- `/\r\n/g → "\n"`. -/
def replaceCrLf : List Char → List Char
  | [] => []
  | '\r' :: '\n' :: t => '\n' :: replaceCrLf t
  | c :: t => c :: replaceCrLf t

/-- `trimmedLine.length > 0 && trimmedLine.length < 80` (`isShortLine`). -/
def isShortLine (t : List Char) : Bool := 0 < t.length && t.length < 80

/-- `/[.,;:!?]$/.test(trimmedLine)`: the line ends in sentence punctuation. -/
def endsPunct (t : List Char) : Bool :=
  match t.getLast? with
  | some c => c = '.' || c = ',' || c = ';' || c = ':' || c = '!' || c = '?'
  | none => false

/-- `noPunctuationEnd = isShortLine && !/[.,;:!?]$/.test(trimmedLine)`. -/
def noPunctEnd (t : List Char) : Bool := isShortLine t && !endsPunct t

/-- `/^[A-Z\s\d\W]*[A-Z][A-Z\s\d\W]*$/.test(t)`: every character is in the
class `[A-Z\s\d\W]` (i.e. no ASCII lowercase letter and no underscore) and
at least one character is `[A-Z]`. -/
def allCapsRegex (t : List Char) : Bool :=
  t.all (fun c => isUpperAscii c || jsWs c || isDigitAscii c || !isWordChar c)
    && t.any isUpperAscii

/-- `isAllCapsLine`: length in (2,80), the regex above, `/[A-Z]/.test` and
not purely numeric (`!/^\d+$/.test`). -/
def isAllCapsLine (t : List Char) : Bool :=
  2 < t.length && t.length < 80 && allCapsRegex t && t.any isUpperAscii
    && !(0 < t.length && t.all isDigitAscii)

/-- The heading condition of the classifier:
`isAllCapsLine || (isShortLine && noPunctuationEnd && nextLineIsBlankOrEndOfFile
&& trimmedLine.length > 1)`, as a function of the trimmed line and of
whether the next line is blank or the input is exhausted. -/
def headingTest (t : List Char) (nextBlank : Bool) : Bool :=
  isAllCapsLine t || (isShortLine t && noPunctEnd t && nextBlank && decide (1 < t.length))

/-- `/\S\s{2,}\S/.test(originalLine)`: somewhere a non-whitespace character
is followed by a run of at least two whitespace characters and then a
non-whitespace character. -/
def hasMultiSpace : List Char → Bool
  | [] => false
  | c :: cs =>
      (!jsWs c && 2 ≤ (cs.takeWhile jsWs).length && !(cs.dropWhile jsWs = []))
        || hasMultiSpace cs

/-- The number of maximal whitespace runs of length ≥ 2 in the line (the
Boolean argument records whether the previous character was whitespace).
`line.split(/\s{2,}/).length` equals this count plus one, because the greedy
`\s{2,}` consumes each such maximal run entirely. -/
def wsRunCount : Bool → List Char → Nat
  | _, [] => 0
  | _, [_] => 0
  | prev, a :: b :: t =>
      (if !prev && jsWs a && jsWs b then 1 else 0) + wsRunCount (jsWs a) (b :: t)

/-- `hasMultipleColumnsBySpaces = originalLine.split(/\s{2,}/).length > 2 &&
originalLine.length > 10`. -/
def hasMultiColumns (l : List Char) : Bool :=
  2 ≤ wsRunCount false l && 10 < l.length

/-- The tabular/code-candidate test applied to the original (untrimmed) line. -/
def isTabular (l : List Char) : Bool := hasMultiSpace l || hasMultiColumns l

/-- The mutable state of the `_convertToMarkdownLogic` loop:
`markdownOutputLines`, `currentParagraphCollector`,
`potentialTableBlockLines` and `inPotentialTableBlock`. -/
structure CState where
  out : List (List Char)
  para : List (List Char)
  tbl : List (List Char)
  inTbl : Bool
deriving DecidableEq

/-- `flushCurrentParagraph`. -/
def flushPara (st : CState) : CState :=
  if st.para = [] then st
  else { st with out := st.out ++ [jsTrimL (joinSep ' ' st.para), []], para := [] }

/-- The three backtick characters of a Markdown fence. -/
def fence : List Char := "```".data

/-- `flushPotentialTableBlock`. -/
def flushTbl (st : CState) : CState :=
  if st.tbl = [] then { st with inTbl := false }
  else
    let pushed :=
      if 2 ≤ st.tbl.length then fence :: st.tbl.map trimEndL ++ [fence]
      else [jsTrimL (joinSep ' ' st.tbl)]
    { st with out := st.out ++ pushed ++ [[]], tbl := [], inTbl := false }

/-- `if (inPotentialTableBlock) flushPotentialTableBlock();`. -/
def flushTblIf (st : CState) : CState := if st.inTbl then flushTbl st else st

/-- `nextLineIsBlankOrEndOfFile`. -/
def nextBlankB : Option (List Char) → Bool
  | none => true
  | some n => decide (jsTrimL n = [])

/-- The blank-line-skip condition of the heading branch
(`nextLineIsBlankOrEndOfFile && inputLines[i+1] && inputLines[i+1].trim()
=== ''`): the next line exists, is truthy (a nonempty string) and blank. -/
def skipB : Option (List Char) → Bool
  | none => false
  | some n => decide (¬ n = []) && decide (jsTrimL n = [])

/-- `markdownOutputLines.push('# ' + trimmedLine); push('')`. -/
def pushHeading (t : List Char) (st : CState) : CState :=
  { st with out := st.out ++ ['#' :: ' ' :: t, []] }

/-- Enter table mode and collect the original line. -/
def pushTabular (l : List Char) (st : CState) : CState :=
  { st with inTbl := true, tbl := st.tbl ++ [l] }

/-- Collect the trimmed line into the paragraph accumulator. -/
def pushPara (t : List Char) (st : CState) : CState :=
  { st with para := st.para ++ [t] }

/-- The body of the classifier loop for one line (`originalLine`), given
the next line when one exists.  Returns the new state and whether the
following line must be skipped (the `i++` of the heading branch). -/
def stepLine (l : List Char) (next? : Option (List Char)) (st : CState) :
    CState × Bool :=
  if jsTrimL l = [] then (flushPara (flushTblIf st), false)
  else if headingTest (jsTrimL l) (nextBlankB next?) then
    (pushHeading (jsTrimL l) (flushPara (flushTblIf st)), skipB next?)
  else if isTabular l then (pushTabular l (flushPara st), false)
  else (pushPara (jsTrimL l) (flushTblIf st), false)

/-- The `for` loop of `_convertToMarkdownLogic` over the split lines. -/
def convSteps : List (List Char) → CState → CState
  | [], st => st
  | [l], st => (stepLine l none st).1
  | l :: n :: rest, st =>
      let r := stepLine l (some n) st
      if r.2 then convSteps rest r.1 else convSteps (n :: rest) r.1

/-- `_convertToMarkdownLogic` on the split lines: run the loop, flush the
pending table block and paragraph, `map(trimEnd).join('\n')`, collapse
`\n{3,}` to `\n\n`, and trim. -/
def convertLines (lines : List (List Char)) : List Char :=
  jsTrimL (collapseNl (joinSep '\n'
    ((flushPara (flushTblIf (convSteps lines ⟨[], [], [], false⟩))).out.map trimEndL)))

/-- `_convertToMarkdownLogic(rawText)`. -/
def convertToMarkdownLogic (s : String) : String :=
  String.mk (convertLines (splitNl s.data))

/-! ## The spec's `MarkdownBlock` view of the output -/

/-- The spec's `MarkdownBlock` variant: `Heading(text)`, `Paragraph(text)`,
`FencedBlock(lines)`. -/
inductive MarkdownBlock where
  | heading (text : String)
  | paragraph (text : String)
  | fenced (lines : List String)
deriving DecidableEq

/-- The characters a block contributes to the serialized document. -/
def blockChars : MarkdownBlock → List Char
  | MarkdownBlock.heading t => '#' :: ' ' :: t.data
  | MarkdownBlock.paragraph t => t.data
  | MarkdownBlock.fenced ls => fence ++ '\n' :: joinSep '\n' (ls.map String.data) ++ '\n' :: fence

/-- Join block renderings with one blank separator line. -/
def joinBlocks : List (List Char) → List Char
  | [] => []
  | [x] => x
  | x :: xs => x ++ '\n' :: '\n' :: joinBlocks xs

/-- Serialization of a block sequence: blocks separated by one blank line. -/
def serializeBlocks (bs : List MarkdownBlock) : String :=
  String.mk (joinBlocks (bs.map blockChars))

/-! ## Generative-engine (WebLLM) lifecycle orchestration -/

/-- `DEFAULT_LLM_MODEL`. -/
def DEFAULT_LLM_MODEL : String := "Qwen3-0.6B-q4f16_1-MLC"

/-- `DEFAULT_LLM_MODEL_LIB_URL`. -/
def DEFAULT_LLM_MODEL_LIB_URL : String :=
  "https://raw.githubusercontent.com/mlc-ai/binary-mlc-llm-libs/main/web-llm-models/v0_2_48/Qwen3-0.6B-q4f16_1-ctx4k_cs1k-webgpu.wasm"

/-- Resolution of `modelLibToUse` inside `_initializeLLM`: a constructor
`llmModelLibUrl` wins; otherwise only the default model has a known URL and
any other model makes initialization fail fast (`none`). -/
def resolveModelLib (cfg : ConverterConfig) (modelId : String) : Option String :=
  match cfg.llmModelLibUrl with
  | some u => some u
  | none => if modelId = DEFAULT_LLM_MODEL then some DEFAULT_LLM_MODEL_LIB_URL else none

/-- Calls issued to the external generative engine. -/
inductive LLMEvent where
  | createEngine (modelId : String)
  | unloadEngine
  | generate (modelId : String)
deriving DecidableEq

/-- The converter's generative-engine instance state: `this.chatModule`
(abstracted by the `modelId` the engine was created for, which the source
stores on the instance as `chatModule.modelId`) and `this.llmInitialized`. -/
structure LLMState where
  chatModule : Option String
  llmInitialized : Bool
deriving DecidableEq

/-- Result of one orchestration call: the new instance state, the calls
issued to the external engine in order, and whether the call succeeded. -/
structure LLMRun where
  state : LLMState
  events : List LLMEvent
  ok : Bool
deriving DecidableEq

/-- `_initializeLLM(modelId)` on the `CreateMLCEngine` path (the imported
module is available, and engine creation itself succeeds whenever a
`model_lib` URL resolves): skip when already initialized with the same
model; otherwise unload any existing instance, then either fail fast when
no `model_lib` URL resolves, or create the engine. -/
def initLLM (cfg : ConverterConfig) (st : LLMState) (modelId : String) : LLMRun :=
  if st.llmInitialized && st.chatModule.isSome && st.chatModule == some modelId then
    { state := st, events := [], ok := true }
  else
    let st1 : LLMState := { chatModule := none, llmInitialized := false }
    let evs1 := match st.chatModule with
      | some _ => [LLMEvent.unloadEngine]
      | none => []
    match resolveModelLib cfg modelId with
    | none => { state := st1, events := evs1, ok := false }
    | some _ =>
        { state := { chatModule := some modelId, llmInitialized := true },
          events := evs1 ++ [LLMEvent.createEngine modelId], ok := true }

/-- `llmRewrite(text, options)` restricted to its engine-lifecycle effect:
initialize (or reuse) the engine for the requested model, then issue one
generation call. -/
def llmRewriteRun (cfg : ConverterConfig) (st : LLMState) (modelId : String) : LLMRun :=
  let r := initLLM cfg st modelId
  if r.ok && r.state.llmInitialized && r.state.chatModule.isSome then
    { r with events := r.events ++ [LLMEvent.generate modelId] }
  else
    { r with ok := false }

/-- The number of engine-initialization calls in an event list. -/
def countCreate (evs : List LLMEvent) : Nat :=
  (evs.filter fun e => match e with | LLMEvent.createEngine _ => true | _ => false).length

/-! ## OCR orchestration (`highAccuracyConvert`) and input validation -/

/-- The outcome of one page of the OCR loop: either the rendered page is
recognized successfully with the given text, or the page's render/recognize
call rejects with the given message. -/
inductive PageOutcome where
  | ok (text : String)
  | fail (msg : String)
deriving DecidableEq

/-- Operations on the external OCR engine handle (the Tesseract worker). -/
inductive OcrOp where
  | createWorker
  | renderPage (n : Nat)
  | recognize (n : Nat)
  | terminate
deriving DecidableEq

/-- The page loop of `highAccuracyConvert`, starting at page `n`: render
and recognize each page in order, appending `text + "\n"`; a failing page
propagates its error immediately (note: WITHOUT terminating the worker);
only after the last page is `worker.terminate()` reached. -/
def ocrPageLoop : Nat → List PageOutcome → List OcrOp × Except String String
  | _, [] => ([OcrOp.terminate], Except.ok "")
  | n, PageOutcome.ok t :: rest =>
      let r := ocrPageLoop (n + 1) rest
      (OcrOp.renderPage n :: OcrOp.recognize n :: r.1,
       r.2.map (fun s => t ++ "\n" ++ s))
  | n, PageOutcome.fail m :: _ =>
      ([OcrOp.renderPage n, OcrOp.recognize n], Except.error m)

/-- The OCR engine-handle trace of `highAccuracyConvert` after successful
worker creation: create the worker, then run the page loop. -/
def highAccuracyOcrTrace (pages : List PageOutcome) : List OcrOp × Except String String :=
  let r := ocrPageLoop 1 pages
  (OcrOp.createWorker :: r.1, r.2)

/-- A JavaScript argument as seen by the `instanceof File` check. -/
inductive JsInput where
  | file (bytes : String)
  | notFile
deriving DecidableEq

/-- `quickConvert(pdfFile, options)`, observed as (progress stages emitted,
result), with the pdf.js extraction abstracted by its produced raw text and
its per-page progress stages.  The very first statement is
`if (!(pdfFile instanceof File)) throw new Error('Invalid input: ...')`,
before any progress report and before pdf.js is touched; the method writes
no instance state. -/
def quickConvertRun (cfg : ConverterConfig) (input : JsInput)
    (extractStages : List String) (extractedRaw : String)
    (extraRules : List PostRule) : List String × Except String String :=
  match input with
  | JsInput.notFile => ([], Except.error "Invalid input: pdfFile must be a File object.")
  | JsInput.file _ =>
      let cleaned0 := postProcessText cfg extractedRaw extraRules
      let cleaned := jsTrimStr (String.mk (collapseNl (replaceCrLf cleaned0.data)))
      ("start_quick" :: extractStages ++
         ["postprocess_quick", "markdown_quick", "complete_quick"],
       Except.ok (convertToMarkdownLogic cleaned))

/-- `highAccuracyConvert(pdfFile, options)`, observed as (progress stages,
OCR-engine operations, result); the raw OCR text is post-processed like the
quick path.  The `instanceof File` check is again the first statement,
before the Tesseract-availability check, before any progress report and
before the worker is created. -/
def highAccuracyConvertRun (cfg : ConverterConfig) (input : JsInput)
    (pages : List PageOutcome) (extraRules : List PostRule) :
    List String × List OcrOp × Except String String :=
  match input with
  | JsInput.notFile =>
      ([], [], Except.error "Invalid input: pdfFile must be a File object.")
  | JsInput.file _ =>
      let r := highAccuracyOcrTrace pages
      match r.2 with
      | Except.error m => (["start_ocr", "ocr_worker_init"], r.1, Except.error m)
      | Except.ok raw =>
          let cleaned0 := postProcessText cfg raw extraRules
          let cleaned := jsTrimStr (String.mk (collapseNl (replaceCrLf cleaned0.data)))
          (["start_ocr", "ocr_worker_init", "ocr_terminate_worker",
            "postprocess_ocr", "markdown_ocr", "complete_ocr"],
           r.1, Except.ok (convertToMarkdownLogic cleaned))

/-! ## Auxiliary predicates and the claim-side rule-order definition -/

/-- The line contains at least one non-whitespace character. -/
def hasContent (l : List Char) : Bool := l.any (fun c => !jsWs c)

/-- A character matched by none of the ten single-character-class built-in
rules (ligatures, smart quotes, bullets, dashes, soft hyphen). -/
def cleanChar (c : Char) : Bool :=
  !(['ﬀ'].contains c) && !(['ﬁ'].contains c) && !(['ﬂ'].contains c) &&
  !(['ﬃ'].contains c) && !(['ﬄ'].contains c) && !(['‘', '’'].contains c) &&
  !(['“', '”'].contains c) &&
  !(['•', '‣', '◦', '⁃', '∙', '●', '○', '⦁', '☙', '❥'].contains c) &&
  !(['–', '—'].contains c) && !(['­'].contains c)

/-- Whitespace-normal form: every whitespace character is a plain space and
no two whitespace characters are adjacent. -/
def wsNorm (l : List Char) : Prop :=
  (∀ c ∈ l, jsWs c = true → c = ' ') ∧
    l.Chain' (fun a b => ¬(jsWs a = true ∧ jsWs b = true))

/-- No two adjacent newline characters. -/
def noDoubleNl (l : List Char) : Prop :=
  l.Chain' (fun a b => ¬(a = '\n' ∧ b = '\n'))

/-- The rule order asserted by the claim (and §4.1 of the spec): built-in
rules, then constructor-supplied rules, then call-supplied rules, and only
after all of those the optional word-splitting rules.  This definition
follows the claim's words and exists solely to be compared against
`postProcessText`, which follows the source. -/
def specOrderPostProcessText (cfg : ConverterConfig) (text : String)
    (additional : List PostRule) : String :=
  if text = "" then ""
  else String.mk (jsTrimL (applyRules
    (baseRules ++ cfg.postProcessRules ++ additional ++
      (if cfg.splitPascalCase then splitRules else [])) text.data))

/-- Well-formedness of the classifier state: paragraph entries are
trimmed non-empty lines, table entries contain non-whitespace, and the
table buffer is empty unless table mode is on. -/
def GoodSt (st : CState) : Prop :=
  (∀ p ∈ st.para, jsTrimL p = p ∧ hasContent p = true) ∧
  (∀ p ∈ st.tbl, hasContent p = true) ∧
  (st.inTbl = false → st.tbl = [])

/-- Some already-emitted output line contains non-whitespace. -/
def OutHas (st : CState) : Prop := ∃ p ∈ st.out, hasContent p = true

/-- The state holds pending or emitted content. -/
def StContent (st : CState) : Prop :=
  OutHas st ∨ st.para ≠ [] ∨ (st.inTbl = true ∧ st.tbl ≠ [])

/-! ## Lemmas about trimming, whitespace collapsing and the built-in rules -/

theorem trimEndL_eq_rdropWhile (l : List Char) : trimEndL l = l.rdropWhile jsWs := rfl

theorem data_mk (l : List Char) : (String.mk l).data = l := rfl

theorem applyRule_wsRun (m : List Char) :
    applyRule ⟨FindPat.wsRun, " "⟩ m = collapseRuns jsWs [' '] m := rfl

theorem applyRules_concat_ws (m : List Char) :
    applyRules (charRules ++ [⟨FindPat.wsRun, " "⟩]) m
      = applyRule ⟨FindPat.wsRun, " "⟩ (applyRules charRules m) := by
  unfold applyRules
  rw [List.foldl_append]
  simp only [List.foldl_cons, List.foldl_nil]

theorem jsTrimL_eq (l : List Char) :
    jsTrimL l = (l.rdropWhile jsWs).dropWhile jsWs := rfl

theorem mem_trimStartL {c : Char} {l : List Char} (h : c ∈ trimStartL l) : c ∈ l :=
  ((List.dropWhile_suffix jsWs).sublist).mem h

theorem mem_trimEndL {c : Char} {l : List Char} (h : c ∈ trimEndL l) : c ∈ l :=
  ((List.rdropWhile_prefix jsWs l).sublist).mem h

theorem mem_jsTrimL {c : Char} {l : List Char} (h : c ∈ jsTrimL l) : c ∈ l :=
  mem_trimEndL (mem_trimStartL h)

theorem rdrop_drop_rdrop (l : List Char) :
    ((l.rdropWhile jsWs).dropWhile jsWs).rdropWhile jsWs
      = (l.rdropWhile jsWs).dropWhile jsWs := by
  rw [List.rdropWhile_eq_self_iff]
  intro hl
  have hx : l.rdropWhile jsWs ≠ [] := by
    intro h0
    apply hl
    rw [h0]
    rfl
  obtain ⟨pre, hpre⟩ :=
    (List.dropWhile_suffix jsWs :
      (l.rdropWhile jsWs).dropWhile jsWs <:+ l.rdropWhile jsWs)
  have h3 : (l.rdropWhile jsWs).getLast? =
      ((l.rdropWhile jsWs).dropWhile jsWs).getLast? := by
    conv_lhs => rw [← hpre]
    exact List.getLast?_append_of_ne_nil pre hl
  rw [List.getLast?_eq_getLast_of_ne_nil hx,
    List.getLast?_eq_getLast_of_ne_nil hl] at h3
  rw [(Option.some.inj h3).symm]
  exact List.rdropWhile_last_not jsWs l hx

theorem jsTrimL_idem (l : List Char) : jsTrimL (jsTrimL l) = jsTrimL l := by
  rw [jsTrimL_eq, jsTrimL_eq l, rdrop_drop_rdrop, List.dropWhile_idempotent]

/-- The characters of a char-class replacement: either from the replacement
string or an original character outside the class. -/
theorem mem_applyCharClass {c : Char} {cs : List Char} {rep : String} {l : List Char}
    (h : c ∈ applyRule ⟨FindPat.charClass cs, rep⟩ l) :
    c ∈ rep.data ∨ (c ∈ l ∧ cs.contains c = false) := by
  simp only [applyRule, List.mem_flatMap] at h
  obtain ⟨a, ha, hca⟩ := h
  by_cases hmem : cs.contains a
  · rw [if_pos hmem] at hca
    exact Or.inl hca
  · rw [if_neg hmem] at hca
    simp only [List.mem_singleton] at hca
    subst hca
    exact Or.inr ⟨ha, by simpa using hmem⟩

/-- A char-class rule is the identity on text free of its class. -/
theorem applyCharClass_id {cs : List Char} {rep : String} {l : List Char}
    (h : ∀ c ∈ l, cs.contains c = false) :
    applyRule ⟨FindPat.charClass cs, rep⟩ l = l := by
  simp only [applyRule]
  induction l with
  | nil => rfl
  | cons a t ih =>
      rw [List.flatMap_cons, if_neg (by simpa using h a (List.mem_cons_self a t)),
        ih (fun c hc => h c (List.mem_cons_of_mem a hc))]
      rfl

theorem cleanChar_of_repMem {c : Char} {s : String}
    (hs : ∀ x ∈ s.data, cleanChar x = true) (h : c ∈ s.data) :
    cleanChar c = true := hs c h

/-- Every character produced by the ten single-character-class built-in
rules is clean: the classes' characters are all eliminated and the
replacements introduce none of them. -/
theorem mem_applyCharRules {c : Char} {l : List Char}
    (h : c ∈ applyRules charRules l) : cleanChar c = true := by
  simp only [charRules, applyRules, List.foldl] at h
  rcases mem_applyCharClass h with h | ⟨h, h10⟩
  · exact cleanChar_of_repMem (by decide) h
  rcases mem_applyCharClass h with h | ⟨h, h9⟩
  · exact cleanChar_of_repMem (by decide) h
  rcases mem_applyCharClass h with h | ⟨h, h8⟩
  · exact cleanChar_of_repMem (by decide) h
  rcases mem_applyCharClass h with h | ⟨h, h7⟩
  · exact cleanChar_of_repMem (by decide) h
  rcases mem_applyCharClass h with h | ⟨h, h6⟩
  · exact cleanChar_of_repMem (by decide) h
  rcases mem_applyCharClass h with h | ⟨h, h5⟩
  · exact cleanChar_of_repMem (by decide) h
  rcases mem_applyCharClass h with h | ⟨h, h4⟩
  · exact cleanChar_of_repMem (by decide) h
  rcases mem_applyCharClass h with h | ⟨h, h3⟩
  · exact cleanChar_of_repMem (by decide) h
  rcases mem_applyCharClass h with h | ⟨h, h2⟩
  · exact cleanChar_of_repMem (by decide) h
  rcases mem_applyCharClass h with h | ⟨h, h1⟩
  · exact cleanChar_of_repMem (by decide) h
  simp only [cleanChar, h1, h2, h3, h4, h5, h6, h7, h8, h9, h10, Bool.not_false,
    Bool.and_self]

/-- The ten single-character-class rules are the identity on clean text. -/
theorem applyCharRules_id {l : List Char} (h : ∀ c ∈ l, cleanChar c = true) :
    applyRules charRules l = l := by
  have hk : ∀ (cs : List Char), (∀ x ∈ cs, cleanChar x = false) →
      ∀ c ∈ l, cs.contains c = false := by
    intro cs hcs c hc
    rcases hcontains : cs.contains c with _ | _
    · rfl
    · have : cleanChar c = false := hcs c (by simpa using hcontains)
      rw [h c hc] at this
      cases this
  simp only [charRules, applyRules, List.foldl]
  rw [applyCharClass_id (hk _ (by decide) ), applyCharClass_id (hk _ (by decide)),
    applyCharClass_id (hk _ (by decide)), applyCharClass_id (hk _ (by decide)),
    applyCharClass_id (hk _ (by decide)), applyCharClass_id (hk _ (by decide)),
    applyCharClass_id (hk _ (by decide)), applyCharClass_id (hk _ (by decide)),
    applyCharClass_id (hk _ (by decide)), applyCharClass_id (hk _ (by decide))]

theorem wsNorm_tail {a : Char} {l : List Char} (h : wsNorm (a :: l)) : wsNorm l :=
  ⟨fun c hc => h.1 c (List.mem_cons_of_mem a hc), h.2.tail⟩

theorem collapseRuns_cons_of_neg {b : Char} {t : List Char} (hb : jsWs b = false) :
    collapseRuns jsWs [' '] (b :: t) = b :: collapseRuns jsWs [' '] t := by
  cases t with
  | nil => simp [collapseRuns, hb]
  | cons c u => simp [collapseRuns, hb]

theorem mem_collapseRuns {c : Char} {l : List Char}
    (h : c ∈ collapseRuns jsWs [' '] l) : c = ' ' ∨ c ∈ l := by
  induction l using collapseRuns.induct jsWs [' '] with
  | case1 => simp [collapseRuns] at h
  | case2 d hd =>
      rw [collapseRuns, if_pos hd] at h
      simp only [List.mem_singleton] at h
      exact Or.inl h
  | case3 d hd =>
      rw [collapseRuns, if_neg hd] at h
      simp only [List.mem_singleton] at h
      exact Or.inr (by simp [h])
  | case4 a b t hab ih =>
      rw [collapseRuns, if_pos hab] at h
      rcases ih h with h | h
      · exact Or.inl h
      · exact Or.inr (List.mem_cons_of_mem a h)
  | case5 a b t hab ha ih =>
      rw [collapseRuns, if_neg hab, if_pos ha] at h
      rcases List.mem_append.mp h with h | h
      · simp only [List.mem_singleton] at h
        exact Or.inl h
      · rcases ih h with h | h
        · exact Or.inl h
        · exact Or.inr (List.mem_cons_of_mem a h)
  | case6 a b t hab ha ih =>
      rw [collapseRuns, if_neg hab, if_neg ha] at h
      rcases List.mem_cons.mp h with h | h
      · exact Or.inr (by simp [h])
      · rcases ih h with h | h
        · exact Or.inl h
        · exact Or.inr (List.mem_cons_of_mem a h)

theorem collapseRuns_wsNorm (l : List Char) : wsNorm (collapseRuns jsWs [' '] l) := by
  induction l using collapseRuns.induct jsWs [' '] with
  | case1 =>
      exact ⟨by simp [collapseRuns], by simp [collapseRuns]⟩
  | case2 d hd =>
      rw [collapseRuns, if_pos hd]
      exact ⟨by simp, List.chain'_singleton _⟩
  | case3 d hd =>
      rw [collapseRuns, if_neg hd]
      exact ⟨fun c hc => by simp only [List.mem_singleton] at hc; simp [hc, hd],
        List.chain'_singleton _⟩
  | case4 a b t hab ih =>
      rw [collapseRuns, if_pos hab]
      exact ih
  | case5 a b t hab ha ih =>
      rw [collapseRuns, if_neg hab, if_pos ha]
      have hb : jsWs b = false := by
        rcases hwb : jsWs b with _ | _
        · rfl
        · rw [ha, hwb] at hab; cases hab rfl
      rw [collapseRuns_cons_of_neg hb] at ih ⊢
      simp only [List.singleton_append]
      refine ⟨?_, ?_⟩
      · intro c hc
        rcases List.mem_cons.mp hc with h | h
        · intro _; simp [h]
        · exact ih.1 c h
      · rw [List.chain'_cons']
        refine ⟨?_, ih.2⟩
        intro y hy
        rw [List.head?_cons] at hy
        cases hy
        intro hcontra
        rw [hb] at hcontra
        cases hcontra.2
  | case6 a b t hab ha ih =>
      rw [collapseRuns, if_neg hab, if_neg ha]
      refine ⟨?_, ?_⟩
      · intro c hc
        rcases List.mem_cons.mp hc with h | h
        · subst h; intro hcontra; exact absurd hcontra ha
        · exact ih.1 c h
      · rw [List.chain'_cons']
        refine ⟨?_, ih.2⟩
        intro y _
        intro hcontra
        exact ha hcontra.1

theorem collapseRuns_id {l : List Char} (h : wsNorm l) :
    collapseRuns jsWs [' '] l = l := by
  induction l using collapseRuns.induct jsWs [' '] with
  | case1 => rfl
  | case2 d hd =>
      rw [collapseRuns, if_pos hd, h.1 d (List.mem_singleton_self d) hd]
  | case3 d hd => rw [collapseRuns, if_neg hd]
  | case4 a b t hab ih =>
      exfalso
      have := List.chain'_cons.mp h.2
      simp only [Bool.and_eq_true] at hab
      exact this.1 ⟨hab.1, hab.2⟩
  | case5 a b t hab ha ih =>
      rw [collapseRuns, if_neg hab, if_pos ha, ih (wsNorm_tail h),
        h.1 a (List.mem_cons_self a _) ha]
      rfl
  | case6 a b t hab ha ih =>
      rw [collapseRuns, if_neg hab, if_neg ha, ih (wsNorm_tail h)]

theorem wsNorm_reverse {l : List Char} (h : wsNorm l) : wsNorm l.reverse := by
  refine ⟨fun c hc => h.1 c (List.mem_reverse.mp hc), ?_⟩
  rw [List.chain'_reverse]
  exact h.2.imp (fun a b hab hx => hab ⟨hx.2, hx.1⟩)

theorem wsNorm_dropWhile {l : List Char} (h : wsNorm l) :
    wsNorm (l.dropWhile jsWs) :=
  ⟨fun c hc => h.1 c (((List.dropWhile_suffix jsWs).sublist).mem hc),
   h.2.suffix (List.dropWhile_suffix jsWs)⟩

theorem wsNorm_trim {l : List Char} (h : wsNorm l) : wsNorm (jsTrimL l) :=
  wsNorm_dropWhile (wsNorm_reverse (wsNorm_dropWhile (wsNorm_reverse h)))

/-- The built-in normalization pass on `List Char` text. -/
theorem postPipeL_idem (l : List Char) :
    postProcessTextL {} [] (postProcessTextL {} [] l) = postProcessTextL {} [] l := by
  have hsplit : ∀ m : List Char,
      postProcessTextL {} [] m
        = jsTrimL (collapseRuns jsWs [' '] (applyRules charRules m)) := by
    intro m
    unfold postProcessTextL
    rw [show ({} : ConverterConfig).postProcessRules = [] from rfl,
      List.append_nil, List.append_nil,
      show defaultPostProcessRules false = charRules ++ [⟨FindPat.wsRun, " "⟩] from rfl,
      applyRules_concat_ws, applyRule_wsRun]
  set y := postProcessTextL {} [] l with hy
  have hclean : ∀ c ∈ y, cleanChar c = true := by
    intro c hc
    rw [hy, hsplit] at hc
    rcases mem_collapseRuns (mem_jsTrimL hc) with h | h
    · subst h; decide
    · exact mem_applyCharRules h
  have hnorm : wsNorm y := by
    rw [hy, hsplit]
    exact wsNorm_trim (collapseRuns_wsNorm _)
  rw [hsplit y, applyCharRules_id hclean, collapseRuns_id hnorm, hy, hsplit l,
    jsTrimL_idem]

/-! ## Lemmas for the structural reconstructor -/

theorem hasContent_exists {l : List Char} (h : hasContent l = true) :
    ∃ c ∈ l, jsWs c = false := by
  simpa [hasContent] using h

theorem hasContent_of_mem {c : Char} {l : List Char} (hc : c ∈ l)
    (hw : jsWs c = false) : hasContent l = true := by
  simp only [hasContent, List.any_eq_true]
  exact ⟨c, hc, by simp [hw]⟩

theorem dropWhile_head_false {p : Char → Bool} :
    ∀ {l t : List Char} {c : Char}, l.dropWhile p = c :: t → p c = false := by
  intro l
  induction l with
  | nil => intro t c h; cases h
  | cons a l ih =>
      intro t c h
      rw [List.dropWhile_cons] at h
      split at h
      · exact ih h
      · next hpa =>
          cases h
          simpa using hpa

theorem trimEndL_hasContent {l : List Char} (h : hasContent l = true) :
    hasContent (trimEndL l) = true ∧ trimEndL l ≠ [] := by
  rw [trimEndL_eq_rdropWhile]
  by_cases h0 : l.rdropWhile jsWs = []
  · rw [List.rdropWhile_eq_nil_iff] at h0
    obtain ⟨c, hc, hw⟩ := hasContent_exists h
    rw [h0 c hc] at hw
    cases hw
  · have hlast := List.rdropWhile_last_not jsWs l h0
    have hmem := List.getLast_mem h0
    exact ⟨hasContent_of_mem hmem (by simpa using hlast), h0⟩

theorem trimStartL_hasContent {l : List Char} (h : hasContent l = true) :
    hasContent (trimStartL l) = true ∧ trimStartL l ≠ [] := by
  unfold trimStartL
  by_cases h0 : l.dropWhile jsWs = []
  · rw [List.dropWhile_eq_nil_iff] at h0
    obtain ⟨c, hc, hw⟩ := hasContent_exists h
    rw [h0 c hc] at hw
    cases hw
  · obtain ⟨c, t, hct⟩ := List.exists_cons_of_ne_nil h0
    have hhead : jsWs c = false := dropWhile_head_false hct
    rw [hct]
    exact ⟨hasContent_of_mem (List.mem_cons_self c t) hhead, by simp⟩

theorem jsTrimL_hasContent {l : List Char} (h : hasContent l = true) :
    hasContent (jsTrimL l) = true ∧ jsTrimL l ≠ [] := by
  unfold jsTrimL
  exact trimStartL_hasContent (trimEndL_hasContent h).1

theorem hasContent_of_trim_ne {l : List Char} (h : jsTrimL l ≠ []) :
    hasContent l = true := by
  by_contra h0
  apply h
  have hall : ∀ c ∈ l, jsWs c = true := by
    intro c hc
    rcases hw : jsWs c with _ | _
    · exact absurd (hasContent_of_mem hc hw) (by simpa using h0)
    · rfl
  unfold jsTrimL trimStartL
  rw [List.dropWhile_eq_nil_iff]
  intro x hx
  exact hall x (mem_trimEndL hx)

theorem mem_joinSep {c : Char} (sep : Char) :
    ∀ {ps : List (List Char)} {p : List Char}, p ∈ ps → c ∈ p →
      c ∈ joinSep sep ps
  | [], p, hp, _ => absurd hp (List.not_mem_nil p)
  | [x], p, hp, hc => by
      rw [List.mem_singleton.mp hp] at hc
      simpa [joinSep] using hc
  | x :: y :: t, p, hp, hc => by
      rcases List.mem_cons.mp hp with h | h
      · subst h
        simp only [joinSep, List.mem_append]
        exact Or.inl hc
      · have := mem_joinSep sep h hc
        simp only [joinSep, List.mem_append, List.mem_cons]
        exact Or.inr (Or.inr this)

theorem mem_collapseNl {c : Char} (hne : ¬ c = '\n') :
    ∀ {l : List Char}, c ∈ l → c ∈ collapseNl l := by
  intro l
  induction l using collapseNl.induct with
  | case1 a b d t habd ih =>
      intro hc
      rw [collapseNl, if_pos habd]
      simp only [Bool.and_eq_true, decide_eq_true_eq] at habd
      rcases List.mem_cons.mp hc with h | h
      · rw [habd.1.1] at h
        exact absurd h hne
      · exact ih h
  | case2 a b d t habd ih =>
      intro hc
      rw [collapseNl, if_neg habd]
      rcases List.mem_cons.mp hc with h | h
      · exact h ▸ List.mem_cons_self a _
      · exact List.mem_cons_of_mem a (ih h)
  | case3 l hshape =>
      intro hc
      rcases l with _ | ⟨a, _ | ⟨b, _ | ⟨d, t⟩⟩⟩
      · exact hc
      · exact hc
      · exact hc
      · exact absurd rfl (hshape a b d t)


theorem splitNl_ne_nil : ∀ (l : List Char), splitNl l ≠ []
  | [] => by simp [splitNl]
  | c :: cs => by
      rw [splitNl]
      split
      · simp
      · split
        · simp
        · simp

theorem exists_line_of_mem {c : Char} (hne : ¬ c = '\n') :
    ∀ {l : List Char}, c ∈ l → ∃ line ∈ splitNl l, c ∈ line
  | [], h => absurd h (List.not_mem_nil c)
  | d :: cs, h => by
      rw [splitNl]
      rcases List.mem_cons.mp h with h | h
      · subst h
        rw [if_neg hne]
        rcases hsp : splitNl cs with _ | ⟨hd, tl⟩
        · exact absurd hsp (splitNl_ne_nil cs)
        · exact ⟨c :: hd, List.mem_cons_self _ _, List.mem_cons_self c hd⟩
      · by_cases hd : d = '\n'
        · rw [if_pos hd]
          obtain ⟨line, hl, hcl⟩ := exists_line_of_mem hne h
          exact ⟨line, List.mem_cons_of_mem [] hl, hcl⟩
        · rw [if_neg hd]
          obtain ⟨line, hl, hcl⟩ := exists_line_of_mem hne h
          rcases hsp : splitNl cs with _ | ⟨hd2, tl⟩
          · exact absurd hsp (splitNl_ne_nil cs)
          · rw [hsp] at hl
            rcases List.mem_cons.mp hl with h2 | h2
            · exact ⟨d :: hd2, List.mem_cons_self _ _,
                h2 ▸ List.mem_cons_of_mem d hcl⟩
            · exact ⟨line, List.mem_cons_of_mem _ h2, hcl⟩

theorem flushPara_out_extend (st : CState) :
    ∃ ex, (flushPara st).out = st.out ++ ex := by
  unfold flushPara
  split
  · exact ⟨[], by simp⟩
  · exact ⟨_, rfl⟩

theorem flushTbl_out_extend (st : CState) :
    ∃ ex, (flushTbl st).out = st.out ++ ex := by
  unfold flushTbl
  split
  · exact ⟨[], by simp⟩
  · refine ⟨(if 2 ≤ st.tbl.length then fence :: st.tbl.map trimEndL ++ [fence]
      else [jsTrimL (joinSep ' ' st.tbl)]) ++ [[]], ?_⟩
    simp [List.append_assoc]

theorem flushTblIf_out_extend (st : CState) :
    ∃ ex, (flushTblIf st).out = st.out ++ ex := by
  unfold flushTblIf
  split
  · exact flushTbl_out_extend st
  · exact ⟨[], by simp⟩

theorem outHas_extend {st st' : CState} (hex : ∃ ex, st'.out = st.out ++ ex)
    (h : OutHas st) : OutHas st' := by
  obtain ⟨ex, hex⟩ := hex
  obtain ⟨p, hp, hc⟩ := h
  exact ⟨p, by simp [hex, hp], hc⟩

theorem flushPara_fields (st : CState) :
    (flushPara st).tbl = st.tbl ∧ (flushPara st).inTbl = st.inTbl ∧
      (flushPara st).para = [] := by
  unfold flushPara
  split
  · simp_all
  · simp

theorem flushTbl_fields (st : CState) :
    (flushTbl st).para = st.para ∧ (flushTbl st).inTbl = false ∧
      (flushTbl st).tbl = [] := by
  unfold flushTbl
  split
  · simp_all
  · simp

theorem flushTblIf_fields (st : CState) :
    (flushTblIf st).para = st.para ∧ (flushTblIf st).tbl = []
      ∨ flushTblIf st = st := by
  unfold flushTblIf
  split
  · exact Or.inl ⟨(flushTbl_fields st).1, (flushTbl_fields st).2.2⟩
  · exact Or.inr rfl

theorem flushPara_good {st : CState} (hg : GoodSt st) : GoodSt (flushPara st) := by
  obtain ⟨h1, h2, h3⟩ := hg
  obtain ⟨f1, f2, f3⟩ := flushPara_fields st
  exact ⟨by simp [f3], by rw [f1]; exact h2, by rw [f1, f2]; exact h3⟩

theorem flushTbl_good {st : CState} (hg : GoodSt st) : GoodSt (flushTbl st) := by
  obtain ⟨h1, h2, h3⟩ := hg
  obtain ⟨f1, f2, f3⟩ := flushTbl_fields st
  exact ⟨by rw [f1]; exact h1, by simp [f3], by simp [f3]⟩

theorem flushTblIf_good {st : CState} (hg : GoodSt st) : GoodSt (flushTblIf st) := by
  unfold flushTblIf
  split
  · exact flushTbl_good hg
  · exact hg

theorem joinSp_hasContent (ps : List (List Char)) {p : List Char}
    (hp : p ∈ ps) (hc : hasContent p = true) :
    hasContent (joinSep ' ' ps) = true := by
  obtain ⟨c, hcp, hw⟩ := hasContent_exists hc
  exact hasContent_of_mem (mem_joinSep ' ' hp hcp) hw

theorem flushPara_outHas {st : CState} (hg : GoodSt st) (hp : st.para ≠ []) :
    OutHas (flushPara st) := by
  unfold flushPara
  rw [if_neg hp]
  obtain ⟨p0, t0, hpt⟩ := List.exists_cons_of_ne_nil hp
  have hc0 : hasContent p0 = true := (hg.1 p0 (by rw [hpt]; exact List.mem_cons_self _ _)).2
  have hcj := joinSp_hasContent st.para (by rw [hpt]; exact List.mem_cons_self _ _) hc0
  refine ⟨jsTrimL (joinSep ' ' st.para), by simp, (jsTrimL_hasContent hcj).1⟩

theorem flushTbl_outHas {st : CState} (hg : GoodSt st) (hp : st.tbl ≠ []) :
    OutHas (flushTbl st) := by
  unfold flushTbl
  rw [if_neg hp]
  split
  · exact ⟨fence, by simp, by decide⟩
  · obtain ⟨p0, t0, hpt⟩ := List.exists_cons_of_ne_nil hp
    have hc0 : hasContent p0 = true := hg.2.1 p0 (by rw [hpt]; exact List.mem_cons_self _ _)
    have hcj := joinSp_hasContent st.tbl (by rw [hpt]; exact List.mem_cons_self _ _) hc0
    refine ⟨jsTrimL (joinSep ' ' st.tbl), by simp, (jsTrimL_hasContent hcj).1⟩

/-- The combined blank-line / end-of-loop flush: well-formedness is kept
and pending content, if any, is emitted to the output lines. -/
theorem flushBoth_spec {st : CState} (hg : GoodSt st) :
    GoodSt (flushPara (flushTblIf st)) ∧
      (StContent st → OutHas (flushPara (flushTblIf st))) := by
  refine ⟨flushPara_good (flushTblIf_good hg), ?_⟩
  intro hc
  rcases hc with hc | hc | hc
  · exact outHas_extend (flushPara_out_extend _)
      (outHas_extend (flushTblIf_out_extend _) hc)
  · have hp : (flushTblIf st).para = st.para := by
      unfold flushTblIf
      split
      · exact (flushTbl_fields st).1
      · rfl
    exact flushPara_outHas (flushTblIf_good hg) (by rw [hp]; exact hc)
  · have : flushTblIf st = flushTbl st := by
      unfold flushTblIf
      rw [if_pos hc.1]
    rw [this]
    exact outHas_extend (flushPara_out_extend _) (flushTbl_outHas hg hc.2)

theorem stepLine_good (l : List Char) (next? : Option (List Char)) {st : CState}
    (hg : GoodSt st) :
    GoodSt (stepLine l next? st).1 ∧
    (StContent st → StContent (stepLine l next? st).1) ∧
    (hasContent l = true → StContent (stepLine l next? st).1) := by
  unfold stepLine
  by_cases ht : jsTrimL l = []
  · rw [if_pos ht]
    refine ⟨(flushBoth_spec hg).1, fun hc => Or.inl ((flushBoth_spec hg).2 hc), ?_⟩
    intro hc
    exact absurd ht (jsTrimL_hasContent hc).2
  · rw [if_neg ht]
    by_cases hh : headingTest (jsTrimL l) (nextBlankB next?) = true
    · rw [if_pos hh]
      have hout : OutHas (pushHeading (jsTrimL l) (flushPara (flushTblIf st))) := by
        refine ⟨'#' :: ' ' :: jsTrimL l, by simp [pushHeading],
          hasContent_of_mem (List.mem_cons_self _ _) (by decide)⟩
      have hgood : GoodSt (pushHeading (jsTrimL l) (flushPara (flushTblIf st))) := by
        have := (flushBoth_spec hg).1
        exact ⟨this.1, this.2.1, this.2.2⟩
      exact ⟨hgood, fun _ => Or.inl hout, fun _ => Or.inl hout⟩
    · rw [if_neg hh]
      by_cases htab : isTabular l = true
      · rw [if_pos htab]
        have hgood : GoodSt (pushTabular l (flushPara st)) := by
          obtain ⟨f1, f2, f3⟩ := flushPara_fields st
          refine ⟨by simp [pushTabular, f3], ?_, by simp [pushTabular]⟩
          intro p hp
          simp only [pushTabular, f1, List.mem_append, List.mem_singleton] at hp
          rcases hp with hp | hp
          · exact hg.2.1 p hp
          · exact hp ▸ hasContent_of_trim_ne ht
        have hcontent : StContent (pushTabular l (flushPara st)) :=
          Or.inr (Or.inr ⟨rfl, by simp [pushTabular]⟩)
        exact ⟨hgood, fun _ => hcontent, fun _ => hcontent⟩
      · rw [if_neg htab]
        have hgood : GoodSt (pushPara (jsTrimL l) (flushTblIf st)) := by
          have hfg := flushTblIf_good hg
          refine ⟨?_, by simp [pushPara]; exact hfg.2.1, by simp [pushPara]; exact hfg.2.2⟩
          intro p hp
          simp only [pushPara, List.mem_append, List.mem_singleton] at hp
          rcases hp with hp | hp
          · exact hfg.1 p hp
          · subst hp
            exact ⟨jsTrimL_idem l, (jsTrimL_hasContent (hasContent_of_trim_ne ht)).1⟩
        have hcontent : StContent (pushPara (jsTrimL l) (flushTblIf st)) :=
          Or.inr (Or.inl (by simp [pushPara]))
        exact ⟨hgood, fun _ => hcontent, fun _ => hcontent⟩

theorem stepLine_skip_blank {l n : List Char} {st : CState}
    (h : (stepLine l (some n) st).2 = true) : jsTrimL n = [] := by
  unfold stepLine at h
  split at h
  · simp at h
  · split at h
    · simp only [skipB, Bool.and_eq_true, decide_eq_true_eq] at h
      exact h.2
    · split at h <;> simp at h

theorem convSteps_content :
    ∀ (lines : List (List Char)) (st : CState), GoodSt st →
      (StContent st ∨ ∃ l ∈ lines, hasContent l = true) →
      GoodSt (convSteps lines st) ∧ StContent (convSteps lines st) := by
  intro lines st
  induction lines, st using convSteps.induct with
  | case1 st =>
      intro hg hc
      rw [convSteps]
      rcases hc with hc | ⟨l, hl, _⟩
      · exact ⟨hg, hc⟩
      · exact absurd hl (List.not_mem_nil l)
  | case2 l st =>
      intro hg hc
      rw [convSteps]
      have hs := stepLine_good l none hg
      rcases hc with hc | ⟨m, hm, hmc⟩
      · exact ⟨hs.1, hs.2.1 hc⟩
      · rw [List.mem_singleton.mp hm] at hmc
        exact ⟨hs.1, hs.2.2 hmc⟩
  | case3 l n rest st r hskip ih =>
      intro hg hc
      simp only [convSteps]
      rw [if_pos hskip]
      apply ih (stepLine_good l (some n) hg).1
      rcases hc with hc | ⟨m, hm, hmc⟩
      · exact Or.inl ((stepLine_good l (some n) hg).2.1 hc)
      · rcases List.mem_cons.mp hm with h | h
        · exact Or.inl ((stepLine_good l (some n) hg).2.2 (h ▸ hmc))
        · rcases List.mem_cons.mp h with h2 | h2
          · exfalso
            rw [h2] at hmc
            exact (jsTrimL_hasContent hmc).2 (stepLine_skip_blank hskip)
          · exact Or.inr ⟨m, h2, hmc⟩
  | case4 l n rest st r hskip ih =>
      intro hg hc
      simp only [convSteps]
      rw [if_neg hskip]
      apply ih (stepLine_good l (some n) hg).1
      rcases hc with hc | ⟨m, hm, hmc⟩
      · exact Or.inl ((stepLine_good l (some n) hg).2.1 hc)
      · rcases List.mem_cons.mp hm with h | h
        · exact Or.inl ((stepLine_good l (some n) hg).2.2 (h ▸ hmc))
        · exact Or.inr ⟨m, h, hmc⟩

theorem trimEndL_idem (l : List Char) : trimEndL (trimEndL l) = trimEndL l := by
  rw [trimEndL_eq_rdropWhile, trimEndL_eq_rdropWhile]
  exact List.rdropWhile_idempotent jsWs l

theorem trimEndL_eq_self {l : List Char}
    (h : ∀ c, l.getLast? = some c → jsWs c = false) : trimEndL l = l := by
  rw [trimEndL_eq_rdropWhile, List.rdropWhile_eq_self_iff]
  intro hl
  have := List.getLast?_eq_getLast_of_ne_nil hl
  simpa using h _ this

theorem trimStartL_eq_self {l : List Char}
    (h : ∀ c, l.head? = some c → jsWs c = false) : trimStartL l = l := by
  rcases l with _ | ⟨c, t⟩
  · rfl
  · unfold trimStartL
    rw [List.dropWhile_cons_of_neg]
    simp [h c rfl]

theorem trimStartL_jsTrimL (l : List Char) :
    trimStartL (jsTrimL l) = jsTrimL l := by
  unfold jsTrimL trimStartL
  exact List.dropWhile_idempotent jsWs (trimEndL l)

theorem trimEndL_jsTrimL (l : List Char) : trimEndL (jsTrimL l) = jsTrimL l := by
  rw [jsTrimL_eq, trimEndL_eq_rdropWhile]
  exact rdrop_drop_rdrop l

theorem noDoubleNl_append : ∀ {xs ys : List Char},
    '\n' ∉ xs → noDoubleNl ys → noDoubleNl (xs ++ ys) := by
  intro xs
  induction xs with
  | nil => intro ys _ h2; simpa using h2
  | cons a t ih =>
      intro ys h1 h2
      have hxs := ih (fun hm => h1 (List.mem_cons_of_mem a hm)) h2
      rw [noDoubleNl, List.cons_append, List.chain'_cons']
      refine ⟨?_, hxs⟩
      intro y _ hcontra
      apply h1
      rw [← hcontra.1]
      exact List.mem_cons_self a t

theorem noDoubleNl_cons {e ys : List Char} (he : e ≠ []) (h1 : '\n' ∉ e)
    (h2 : noDoubleNl ys) : noDoubleNl ('\n' :: (e ++ ys)) := by
  obtain ⟨c, t, hct⟩ := List.exists_cons_of_ne_nil he
  subst hct
  rw [noDoubleNl, List.chain'_cons']
  refine ⟨?_, noDoubleNl_append h1 h2⟩
  intro y hy hcontra
  simp only [List.cons_append, List.head?_cons, Option.mem_def,
    Option.some.injEq] at hy
  apply h1
  rw [← hcontra.2, ← hy]
  exact List.mem_cons_self _ _

theorem collapseNl_id : ∀ {l : List Char}, noDoubleNl l → collapseNl l = l := by
  intro l
  induction l using collapseNl.induct with
  | case1 a b d t habd ih =>
      intro h
      exfalso
      simp only [Bool.and_eq_true, decide_eq_true_eq] at habd
      exact (List.chain'_cons.mp h).1 ⟨habd.1.1, habd.1.2⟩
  | case2 a b d t habd ih =>
      intro h
      rw [collapseNl, if_neg habd, ih h.tail]
  | case3 l hshape =>
      intro h
      rcases l with _ | ⟨a, _ | ⟨b, _ | ⟨d, t⟩⟩⟩
      · rfl
      · rfl
      · rfl
      · exact absurd rfl (hshape a b d t)

theorem splitNl_no_nl : ∀ {l : List Char}, '\n' ∉ l → splitNl l = [l] := by
  intro l
  induction l with
  | nil => intro _; rfl
  | cons a t ih =>
      intro h
      rw [splitNl,
        if_neg (fun ha => h (by rw [← ha]; exact List.mem_cons_self a t)),
        ih (fun hm => h (List.mem_cons_of_mem a hm))]

theorem splitNl_two {xs ys : List Char} (hx : '\n' ∉ xs) (hy : '\n' ∉ ys) :
    splitNl (xs ++ '\n' :: ys) = [xs, ys] := by
  induction xs with
  | nil => simp [splitNl, splitNl_no_nl hy]
  | cons a t ih =>
      have ha : ¬ a = '\n' := fun h => hx (h ▸ List.mem_cons_self a t)
      rw [List.cons_append, splitNl, if_neg ha,
        ih (fun hm => hx (List.mem_cons_of_mem a hm))]

theorem hasMultiSpace_content : ∀ {l : List Char},
    hasMultiSpace l = true → hasContent l = true := by
  intro l
  induction l with
  | nil => intro h; cases h
  | cons c cs ih =>
      intro h
      rw [hasMultiSpace, Bool.or_eq_true] at h
      rcases h with h | h
      · simp only [Bool.and_eq_true, Bool.not_eq_true'] at h
        exact hasContent_of_mem (List.mem_cons_self c cs) h.1.1
      · obtain ⟨d, hd, hw⟩ := hasContent_exists (ih h)
        exact hasContent_of_mem (List.mem_cons_of_mem c hd) hw

theorem wsRunCount_content : ∀ (l : List Char),
    (1 ≤ wsRunCount true l → hasContent l = true) ∧
    (∀ prev, 2 ≤ wsRunCount prev l → hasContent l = true) := by
  intro l
  induction l with
  | nil => refine ⟨fun h => ?_, fun prev h => ?_⟩ <;> simp [wsRunCount] at h
  | cons a t ih =>
      rcases t with _ | ⟨b, t'⟩
      · refine ⟨fun h => ?_, fun prev h => ?_⟩ <;> simp [wsRunCount] at h
      · have lift : hasContent (b :: t') = true → hasContent (a :: b :: t') = true := by
          intro hc
          obtain ⟨d, hd, hw⟩ := hasContent_exists hc
          exact hasContent_of_mem (List.mem_cons_of_mem a hd) hw
        constructor
        · intro h
          rcases hwa : jsWs a with _ | _
          · exact hasContent_of_mem (List.mem_cons_self a _) hwa
          · have h' : 1 ≤ wsRunCount (jsWs a) (b :: t') := by
              rw [wsRunCount] at h
              split at h
              · next hc => simp at hc
              · omega
            rw [hwa] at h'
            exact lift (ih.1 h')
        · intro prev h
          rcases hwa : jsWs a with _ | _
          · exact hasContent_of_mem (List.mem_cons_self a _) hwa
          · rw [wsRunCount] at h
            split at h
            · have h' : 1 ≤ wsRunCount (jsWs a) (b :: t') := by omega
              rw [hwa] at h'
              exact lift (ih.1 h')
            · have h' : 2 ≤ wsRunCount (jsWs a) (b :: t') := by omega
              exact lift (ih.2 (jsWs a) h')

theorem isTabular_content {l : List Char} (h : isTabular l = true) :
    hasContent l = true := by
  rw [isTabular, Bool.or_eq_true] at h
  rcases h with h | h
  · exact hasMultiSpace_content h
  · rw [hasMultiColumns, Bool.and_eq_true] at h
    exact (wsRunCount_content l).2 false (by simpa using h.1)

theorem stepLine_tabular (next? : Option (List Char)) {l : List Char} {st : CState}
    (ht : ¬ jsTrimL l = []) (hh : headingTest (jsTrimL l) (nextBlankB next?) = false)
    (htab : isTabular l = true) :
    stepLine l next? st = (pushTabular l (flushPara st), false) := by
  unfold stepLine
  rw [if_neg ht, if_neg (by simp [hh]), if_pos htab]

theorem fence_ne_nil : fence ≠ [] := by decide

theorem nl_not_mem_fence : '\n' ∉ fence := by decide

theorem trimEndL_fence : trimEndL fence = fence := by decide

theorem trimEndL_nil : trimEndL ([] : List Char) = [] := rfl

theorem trimEndL_concat_ws {l : List Char} {c : Char} (hc : jsWs c = true) :
    trimEndL (l ++ [c]) = trimEndL l := by
  rw [trimEndL_eq_rdropWhile, trimEndL_eq_rdropWhile]
  simp [hc]

theorem trimStartL_fence_append (X : List Char) :
    trimStartL (fence ++ X) = fence ++ X := by
  apply trimStartL_eq_self
  intro c hc
  have h0 : (fence ++ X).head? = some (Char.ofNat 96) := rfl
  rw [h0] at hc
  cases hc
  decide

theorem fence_getLast_not_ws : ∀ c, fence.getLast? = some c → jsWs c = false := by
  intro c hc
  have h0 : fence.getLast? = some (Char.ofNat 96) := rfl
  rw [h0] at hc
  cases hc
  decide

theorem getLast?_fenceJoin (e1 e2 : List Char) :
    (fence ++ '\n' :: (e1 ++ '\n' :: (e2 ++ '\n' :: fence))).getLast?
      = fence.getLast? := by
  calc (fence ++ '\n' :: (e1 ++ '\n' :: (e2 ++ '\n' :: fence))).getLast?
      = ('\n' :: (e1 ++ '\n' :: (e2 ++ '\n' :: fence))).getLast? :=
        List.getLast?_append_of_ne_nil fence (by simp)
    _ = (e1 ++ '\n' :: (e2 ++ '\n' :: fence)).getLast? :=
        List.getLast?_append_of_ne_nil ['\n'] (by simp)
    _ = ('\n' :: (e2 ++ '\n' :: fence)).getLast? :=
        List.getLast?_append_of_ne_nil e1 (by simp)
    _ = (e2 ++ '\n' :: fence).getLast? :=
        List.getLast?_append_of_ne_nil ['\n'] (by simp)
    _ = ('\n' :: fence).getLast? :=
        List.getLast?_append_of_ne_nil e2 (by simp)
    _ = fence.getLast? :=
        List.getLast?_append_of_ne_nil ['\n'] fence_ne_nil

theorem jsTrimL_fenceJoin {e1 e2 : List Char} :
    jsTrimL ((fence ++ '\n' :: (e1 ++ '\n' :: (e2 ++ '\n' :: fence))) ++ ['\n'])
      = fence ++ '\n' :: (e1 ++ '\n' :: (e2 ++ '\n' :: fence)) := by
  rw [jsTrimL, trimEndL_concat_ws (by decide),
    trimEndL_eq_self (fun c hc => fence_getLast_not_ws c ((getLast?_fenceJoin e1 e2) ▸ hc)),
    trimStartL_fence_append]

theorem convLines_two {l1 l2 : List Char}
    (ht1 : isTabular l1 = true) (ht2 : isTabular l2 = true)
    (hh1 : headingTest (jsTrimL l1) false = false)
    (hh2 : headingTest (jsTrimL l2) true = false)
    (hn1 : '\n' ∉ l1) (hn2 : '\n' ∉ l2) :
    convertLines [l1, l2]
      = fence ++ '\n' :: (trimEndL l1 ++ '\n' :: (trimEndL l2 ++ '\n' :: fence)) := by
  have hc1 := isTabular_content ht1
  have hc2 := isTabular_content ht2
  have htr1 : ¬ jsTrimL l1 = [] := (jsTrimL_hasContent hc1).2
  have htr2 : ¬ jsTrimL l2 = [] := (jsTrimL_hasContent hc2).2
  have hnb : nextBlankB (some l2) = false := by simp [nextBlankB, htr2]
  have hs1 : stepLine l1 (some l2) ⟨[], [], [], false⟩
      = (⟨[], [], [l1], true⟩, false) := by
    rw [stepLine_tabular (some l2) htr1 (by rw [hnb]; exact hh1) ht1]
    rfl
  have hs2 : stepLine l2 none ⟨[], [], [l1], true⟩
      = (⟨[], [], [l1, l2], true⟩, false) := by
    rw [stepLine_tabular none htr2 hh2 ht2]
    rfl
  have hconv : convSteps [l1, l2] ⟨[], [], [], false⟩ = ⟨[], [], [l1, l2], true⟩ := by
    simp only [convSteps, hs1, hs2]
    rfl
  have hflush : flushPara (flushTblIf (⟨[], [], [l1, l2], true⟩ : CState))
      = ⟨[fence, trimEndL l1, trimEndL l2, fence, []], [], [], false⟩ := by
    unfold flushTblIf flushTbl flushPara
    simp
  have he1 : trimEndL l1 ≠ [] := (trimEndL_hasContent hc1).2
  have he2 : trimEndL l2 ≠ [] := (trimEndL_hasContent hc2).2
  have hne1 : '\n' ∉ trimEndL l1 := fun hm => hn1 (mem_trimEndL hm)
  have hne2 : '\n' ∉ trimEndL l2 := fun hm => hn2 (mem_trimEndL hm)
  have hnd : noDoubleNl (fence ++ '\n' :: (trimEndL l1 ++ '\n' ::
      (trimEndL l2 ++ '\n' :: (fence ++ ['\n'])))) :=
    noDoubleNl_append nl_not_mem_fence
      (noDoubleNl_cons he1 hne1
        (noDoubleNl_cons he2 hne2
          (noDoubleNl_cons fence_ne_nil nl_not_mem_fence (by simp [noDoubleNl]))))
  unfold convertLines
  rw [hconv, hflush]
  simp only [List.map_cons, List.map_nil, trimEndL_fence, trimEndL_idem, trimEndL_nil]
  simp only [joinSep]
  rw [collapseNl_id (by simpa using hnd)]
  have hassoc : fence ++ '\n' :: (trimEndL l1 ++ '\n' ::
        (trimEndL l2 ++ '\n' :: (fence ++ ['\n'])))
      = (fence ++ '\n' :: (trimEndL l1 ++ '\n' :: (trimEndL l2 ++ '\n' :: fence)))
        ++ ['\n'] := by
    simp [List.append_assoc]
  rw [show (fence ++ '\n' :: (trimEndL l1 ++ '\n' ::
      (trimEndL l2 ++ '\n' :: (fence ++ ['\n'])))) =
      (fence ++ '\n' :: (trimEndL l1 ++ '\n' :: (trimEndL l2 ++ '\n' :: fence)))
        ++ ['\n'] from hassoc]
  exact jsTrimL_fenceJoin

theorem convLines_single {l : List Char}
    (ht : isTabular l = true) (hh : headingTest (jsTrimL l) true = false)
    (hn : '\n' ∉ l) :
    convertLines [l] = jsTrimL l := by
  have hc := isTabular_content ht
  have htr : ¬ jsTrimL l = [] := (jsTrimL_hasContent hc).2
  have hs : stepLine l none ⟨[], [], [], false⟩ = (⟨[], [], [l], true⟩, false) := by
    rw [stepLine_tabular none htr hh ht]
    rfl
  have hflush : flushPara (flushTblIf (⟨[], [], [l], true⟩ : CState))
      = ⟨[jsTrimL l, []], [], [], false⟩ := by
    unfold flushTblIf flushTbl flushPara
    simp [joinSep]
  unfold convertLines
  rw [convSteps, hs, show ((⟨[], [], [l], true⟩, false) : CState × Bool).1
    = (⟨[], [], [l], true⟩ : CState) from rfl, hflush]
  simp only [List.map_cons, List.map_nil, trimEndL_jsTrimL, trimEndL_nil]
  simp only [joinSep]
  have hnd : noDoubleNl (jsTrimL l ++ ['\n']) :=
    noDoubleNl_append (fun hm => hn (mem_jsTrimL hm)) (by simp [noDoubleNl])
  rw [collapseNl_id (by simpa using hnd), jsTrimL,
    trimEndL_concat_ws (by decide), trimEndL_jsTrimL, trimStartL_jsTrimL]

/-! ## Claim theorems -/

/-- C1 counterexample: on the raw text of the end-to-end scenario, default
normalization does NOT leave the text materially unchanged — the built-in
whitespace rule collapses the newlines too, so the whole input becomes one
line and `_convertToMarkdownLogic` emits a single heading of it, not the
claimed Heading/Paragraph/Paragraph sequence. -/
theorem c1_counterexample :
    convertToMarkdownLogic (postProcessText {}
        "TOTAL DUE\n\nPlease   pay    within 30 days.\nAmount:   100   USD\n" [])
      = "# TOTAL DUE Please pay within 30 days. Amount: 100 USD" ∧
    postProcessText {}
        "TOTAL DUE\n\nPlease   pay    within 30 days.\nAmount:   100   USD\n" []
      ≠ "TOTAL DUE\n\nPlease   pay    within 30 days.\nAmount:   100   USD\n" ∧
    convertToMarkdownLogic (postProcessText {}
        "TOTAL DUE\n\nPlease   pay    within 30 days.\nAmount:   100   USD\n" [])
      ≠ serializeBlocks [MarkdownBlock.heading "TOTAL DUE",
          MarkdownBlock.paragraph "Please pay within 30 days.",
          MarkdownBlock.paragraph "Amount:   100   USD"] := by
  refine ⟨rfl, ?_, ?_⟩ <;> decide

/-- C1 (amended): default normalization collapses every whitespace run —
newlines included — to a single space, so the raw text becomes the single
line `"TOTAL DUE Please pay within 30 days. Amount: 100 USD"`, and
`_convertToMarkdownLogic` then yields exactly the one block
`Heading` of that entire collapsed line. -/
theorem c1_amended :
    postProcessText {}
        "TOTAL DUE\n\nPlease   pay    within 30 days.\nAmount:   100   USD\n" []
      = "TOTAL DUE Please pay within 30 days. Amount: 100 USD" ∧
    convertToMarkdownLogic "TOTAL DUE Please pay within 30 days. Amount: 100 USD"
      = serializeBlocks [MarkdownBlock.heading
          "TOTAL DUE Please pay within 30 days. Amount: 100 USD"] := by
  exact ⟨rfl, rfl⟩

/-- C2 counterexample: a caller-supplied rule whose `find` is the plain
string `"ab"` replaces only the FIRST occurrence (JS `String.replace` with
a string pattern), so `"abab"` becomes `"Xab"`, not `"XX"` as the claim's
replace-all reading requires. -/
theorem c2_counterexample :
    postProcessText { postProcessRules := [⟨FindPat.plainStr "ab", "X"⟩] } "abab" []
      = "Xab" ∧
    postProcessText { postProcessRules := [⟨FindPat.plainStr "ab", "X"⟩] } "abab" []
      ≠ "XX" := by
  exact ⟨rfl, by decide⟩

/-- C9: the OCR worker handle is NOT released on the failing exit path.
With a two-page document whose second page's recognition rejects, the
engine-operation trace of `highAccuracyConvert` contains `createWorker`
and both page operations but no `terminate`; the error propagates with the
worker still alive.  (On the all-pages-succeed path the worker IS
terminated after the last page.) -/
theorem c9_code_behavior :
    highAccuracyOcrTrace [PageOutcome.ok "page one text", PageOutcome.fail "recognize failed"]
      = ([OcrOp.createWorker, OcrOp.renderPage 1, OcrOp.recognize 1,
          OcrOp.renderPage 2, OcrOp.recognize 2], Except.error "recognize failed") ∧
    OcrOp.terminate ∉
      (highAccuracyOcrTrace
        [PageOutcome.ok "page one text", PageOutcome.fail "recognize failed"]).1 ∧
    OcrOp.terminate ∈ (highAccuracyOcrTrace [PageOutcome.ok "page one text"]).1 := by
  refine ⟨rfl, ?_, ?_⟩ <;> decide

/-- C10: for an argument that is not a `File`, both conversion entry points
throw `Invalid input: pdfFile must be a File object.` as their very first
statement: no progress stage is emitted, no external-engine operation is
issued, and (the methods assigning no instance fields) the converter state
is untouched. -/
theorem c10_invalid_input (cfg : ConverterConfig) (extractStages : List String)
    (extractedRaw : String) (extraRules : List PostRule) (pages : List PageOutcome) :
    quickConvertRun cfg JsInput.notFile extractStages extractedRaw extraRules
      = ([], Except.error "Invalid input: pdfFile must be a File object.") ∧
    highAccuracyConvertRun cfg JsInput.notFile pages extraRules
      = ([], [], Except.error "Invalid input: pdfFile must be a File object.") := by
  exact ⟨rfl, rfl⟩

/-- C5 counterexample: the whitespace-only input `" "` is a non-empty
string, yet `_convertToMarkdownLogic` returns the empty serialized output
(the blank line produces no block at all). -/
theorem c5_counterexample :
    convertToMarkdownLogic " " = "" ∧ (" " : String) ≠ "" := by
  exact ⟨rfl, by decide⟩

/-- C4 counterexample: heading classification preempts the tabular check,
so two consecutive all-caps tabular lines become two Headings, not one
FencedBlock; and a single short tabular line in isolation becomes a
Heading, not a Paragraph. -/
theorem c4_counterexample :
    isTabular ("AB  CD" : String).data = true ∧
    isTabular ("EF  GH" : String).data = true ∧
    convertToMarkdownLogic "AB  CD\nEF  GH"
      = serializeBlocks [MarkdownBlock.heading "AB  CD",
          MarkdownBlock.heading "EF  GH"] ∧
    convertToMarkdownLogic "AB  CD\nEF  GH"
      ≠ serializeBlocks [MarkdownBlock.fenced ["AB  CD", "EF  GH"]] ∧
    convertToMarkdownLogic "AB  CD"
      ≠ serializeBlocks [MarkdownBlock.paragraph "AB  CD"] := by
  refine ⟨rfl, rfl, rfl, ?_, ?_⟩ <;> decide

/-- C4 (amended): provided no involved line qualifies as a heading (the
heading check runs first: the line must not be all-caps, and a line whose
next line is blank or end-of-input must not be short without terminal
punctuation), two consecutive lines each containing a run of ≥2 spaces
between non-whitespace tokens are emitted as one FencedBlock holding
exactly those two lines (trailing-trimmed), and a single such line on its
own is emitted as a plain Paragraph. -/
theorem c4_amended :
    (∀ s1 s2 : String,
      isTabular s1.data = true → isTabular s2.data = true →
      headingTest (jsTrimL s1.data) false = false →
      headingTest (jsTrimL s2.data) true = false →
      '\n' ∉ s1.data → '\n' ∉ s2.data →
      convertToMarkdownLogic (s1 ++ "\n" ++ s2)
        = serializeBlocks [MarkdownBlock.fenced
            [String.mk (trimEndL s1.data), String.mk (trimEndL s2.data)]]) ∧
    (∀ s : String,
      isTabular s.data = true →
      headingTest (jsTrimL s.data) true = false →
      '\n' ∉ s.data →
      convertToMarkdownLogic s
        = serializeBlocks [MarkdownBlock.paragraph (jsTrimStr s)]) := by
  constructor
  · intro s1 s2 ht1 ht2 hh1 hh2 hn1 hn2
    rw [convertToMarkdownLogic]
    have hdata : (s1 ++ "\n" ++ s2).data = s1.data ++ '\n' :: s2.data := by
      rw [String.data_append, String.data_append]
      simp [List.append_assoc]
    rw [hdata, splitNl_two hn1 hn2, convLines_two ht1 ht2 hh1 hh2 hn1 hn2,
      serializeBlocks]
    congr 1
    simp [joinBlocks, blockChars, data_mk, joinSep, List.append_assoc]
  · intro s ht hh hn
    rw [convertToMarkdownLogic, splitNl_no_nl hn, convLines_single ht hh hn]
    rfl

/-- C4 witness: the fenced-block case at `"ab  cd"`/`"ef  gh."` and the
single-line paragraph case at `"ab  cd."`. -/
theorem c4_amended_witness :
    (isTabular ("ab  cd" : String).data = true ∧
     isTabular ("ef  gh." : String).data = true ∧
     headingTest (jsTrimL ("ab  cd" : String).data) false = false ∧
     headingTest (jsTrimL ("ef  gh." : String).data) true = false ∧
     '\n' ∉ ("ab  cd" : String).data ∧ '\n' ∉ ("ef  gh." : String).data ∧
     convertToMarkdownLogic ("ab  cd" ++ "\n" ++ "ef  gh.")
       = serializeBlocks [MarkdownBlock.fenced
           [String.mk (trimEndL ("ab  cd" : String).data),
            String.mk (trimEndL ("ef  gh." : String).data)]]) ∧
    (isTabular ("ab  cd." : String).data = true ∧
     headingTest (jsTrimL ("ab  cd." : String).data) true = false ∧
     '\n' ∉ ("ab  cd." : String).data ∧
     convertToMarkdownLogic "ab  cd."
       = serializeBlocks [MarkdownBlock.paragraph (jsTrimStr "ab  cd.")]) :=
  ⟨⟨by decide, by decide, by decide, by decide, by decide, by decide,
    c4_amended.1 "ab  cd" "ef  gh." (by decide) (by decide) (by decide)
      (by decide) (by decide) (by decide)⟩,
   ⟨by decide, by decide, by decide,
    c4_amended.2 "ab  cd." (by decide) (by decide) (by decide)⟩⟩

/-- C5 (amended): for every input containing at least one non-whitespace
character, `_convertToMarkdownLogic` produces a non-empty serialized
output: the content reaches an accumulator, is flushed into an output
line, and survives joining, newline collapsing and trimming. -/
theorem c5_nonempty (s : String) (h : hasContent s.data = true) :
    convertToMarkdownLogic s ≠ "" := by
  obtain ⟨c, hc, hw⟩ := hasContent_exists h
  have hcn : ¬ c = '\n' := by
    intro he
    rw [he] at hw
    exact absurd hw (by decide)
  obtain ⟨line, hline, hcl⟩ := exists_line_of_mem hcn hc
  have hinit : GoodSt ⟨[], [], [], false⟩ := ⟨by simp, by simp, fun _ => rfl⟩
  have hmain := convSteps_content (splitNl s.data) ⟨[], [], [], false⟩ hinit
    (Or.inr ⟨line, hline, hasContent_of_mem hcl hw⟩)
  obtain ⟨p, hp, hpc⟩ := (flushBoth_spec hmain.1).2 hmain.2
  obtain ⟨c3, hc3, hw3⟩ := hasContent_exists (trimEndL_hasContent hpc).1
  have h3n : ¬ c3 = '\n' := by
    intro he
    rw [he] at hw3
    exact absurd hw3 (by decide)
  have hj := mem_joinSep '\n' (List.mem_map_of_mem trimEndL hp) hc3
  have hfinal := (jsTrimL_hasContent
    (hasContent_of_mem (mem_collapseNl h3n hj) hw3)).2
  intro hcontra
  apply hfinal
  have hdata := congrArg String.data hcontra
  rw [convertToMarkdownLogic, data_mk] at hdata
  unfold convertLines at hdata
  exact hdata

/-- C5 witness: the amended non-emptiness property at the concrete input
`"hello"`. -/
theorem c5_nonempty_witness :
    hasContent ("hello" : String).data = true ∧ convertToMarkdownLogic "hello" ≠ "" :=
  ⟨by decide, c5_nonempty "hello" (by decide)⟩

/-- C6 counterexample: the word-splitting rules are pushed onto the
BUILT-IN rule list, so they run BEFORE caller-configured rules, not after
them as the claim states.  With `splitPascalCase` enabled and a constructor
rule replacing the plain string `"AbcDef"` by `"X"`, the source yields
`"Abc Def"` (split first, so the custom rule no longer matches) while the
claim's ordering would yield `"X"`. -/
theorem c6_counterexample :
    postProcessText ⟨true, [⟨FindPat.plainStr "AbcDef", "X"⟩], none⟩ "AbcDef" []
      = "Abc Def" ∧
    specOrderPostProcessText ⟨true, [⟨FindPat.plainStr "AbcDef", "X"⟩], none⟩ "AbcDef" []
      = "X" ∧
    postProcessText ⟨true, [⟨FindPat.plainStr "AbcDef", "X"⟩], none⟩ "AbcDef" []
      ≠ specOrderPostProcessText ⟨true, [⟨FindPat.plainStr "AbcDef", "X"⟩], none⟩
          "AbcDef" [] := by
  refine ⟨rfl, rfl, ?_⟩; decide

/-- C7: applying `_postProcessText` with the built-in rule set (no custom
rules) twice in succession yields the same result as applying it once:
after one pass no character of any single-character class remains and the
whitespace is in normal form, so every built-in rule — and the final trim —
acts as the identity on the second pass. -/
theorem c7_idempotent (t : String) :
    postProcessText {} (postProcessText {} t []) [] = postProcessText {} t [] := by
  by_cases h0 : t = ""
  · subst h0; rfl
  · unfold postProcessText
    rw [if_neg h0]
    by_cases h1 : String.mk (postProcessTextL {} [] t.data) = ""
    · rw [if_pos h1]
      exact h1.symm
    · rw [if_neg h1, data_mk, postPipeL_idem]

/-- C6 (amended): when `splitPascalCase` is enabled the three splitting
passes are appended to the built-in rules and therefore run after the
built-ins but BEFORE constructor- and call-supplied rules; they insert a
space at lowercase-to-uppercase and capitalized-word boundaries, and the
three passes catch chained transitions: `AbcDefGhi → Abc Def Ghi`. -/
theorem c6_amended :
    defaultPostProcessRules true = baseRules ++ splitRules ∧
    postProcessText ⟨true, [⟨FindPat.plainStr "AbcDef", "X"⟩], none⟩ "AbcDef" []
      = "Abc Def" ∧
    postProcessText ⟨true, [], none⟩ "AbcDefGhi" [] = "Abc Def Ghi" := by
  exact ⟨rfl, rfl, rfl⟩

/-- C8: starting from an uninitialized converter, two `llmRewrite` calls
with the same resolvable `modelId` issue exactly one engine-initialization
call (the second detects the Ready engine for that model and skips
re-initialization), and a third call with a different resolvable `modelId`
unloads the existing engine and then performs a fresh initialization. -/
theorem c8_llm_lifecycle (cfg : ConverterConfig) (m m' u u' : String)
    (hm : resolveModelLib cfg m = some u) (hm' : resolveModelLib cfg m' = some u')
    (hne : m ≠ m') :
    countCreate ((llmRewriteRun cfg ⟨none, false⟩ m).events ++
        (llmRewriteRun cfg (llmRewriteRun cfg ⟨none, false⟩ m).state m).events) = 1 ∧
    (llmRewriteRun cfg
        (llmRewriteRun cfg (llmRewriteRun cfg ⟨none, false⟩ m).state m).state m').events
      = [LLMEvent.unloadEngine, LLMEvent.createEngine m', LLMEvent.generate m'] := by
  simp [llmRewriteRun, initLLM, hm, hm', countCreate, hne]

/-- C8 witness: the lifecycle property at the concrete models `"model-a"`
and `"model-b"` with an explicitly configured `llmModelLibUrl`. -/
theorem c8_llm_lifecycle_witness :
    resolveModelLib ⟨false, [], some "lib.wasm"⟩ "model-a" = some "lib.wasm" ∧
    resolveModelLib ⟨false, [], some "lib.wasm"⟩ "model-b" = some "lib.wasm" ∧
    ("model-a" : String) ≠ "model-b" ∧
    (countCreate ((llmRewriteRun ⟨false, [], some "lib.wasm"⟩ ⟨none, false⟩ "model-a").events ++
        (llmRewriteRun ⟨false, [], some "lib.wasm"⟩
          (llmRewriteRun ⟨false, [], some "lib.wasm"⟩ ⟨none, false⟩ "model-a").state
          "model-a").events) = 1 ∧
      (llmRewriteRun ⟨false, [], some "lib.wasm"⟩
          (llmRewriteRun ⟨false, [], some "lib.wasm"⟩
            (llmRewriteRun ⟨false, [], some "lib.wasm"⟩ ⟨none, false⟩ "model-a").state
            "model-a").state "model-b").events
        = [LLMEvent.unloadEngine, LLMEvent.createEngine "model-b",
           LLMEvent.generate "model-b"]) :=
  ⟨rfl, rfl, by decide,
    c8_llm_lifecycle ⟨false, [], some "lib.wasm"⟩ "model-a" "model-b"
      "lib.wasm" "lib.wasm" rfl rfl (by decide)⟩

/-- C2 (amended): the rule list is applied strictly in sequence — each rule
transforms the entire current text and the remaining rules run on its
output — and a rule whose `find` is a global character-class regex (as all
built-in rules are) replaces ALL occurrences: no character of its class
survives, provided its replacement introduces none.  A caller-supplied rule
whose `find` is a plain string, however, replaces only the first
occurrence (see the counterexample). -/
theorem c2_amended (r : PostRule) (rs : List PostRule) (l : List Char)
    (cs : List Char) (rep : String)
    (hrep : ∀ c ∈ rep.data, cs.contains c = false) :
    applyRules (r :: rs) l = applyRules rs (applyRule r l) ∧
    ∀ c ∈ applyRule ⟨FindPat.charClass cs, rep⟩ l, cs.contains c = false := by
  refine ⟨rfl, ?_⟩
  intro c hc
  simp only [applyRule, List.mem_flatMap] at hc
  obtain ⟨a, _, hca⟩ := hc
  by_cases h : cs.contains a
  · rw [if_pos h] at hca
    exact hrep c hca
  · rw [if_neg h] at hca
    simp only [List.mem_singleton] at hca
    subst hca
    simpa using h

/-- C2 witness: sequencing and replace-all at a concrete rule
(`[é] → "e"` followed by further rules) on a concrete text. -/
theorem c2_amended_witness :
    (∀ c ∈ ("e" : String).data, List.contains ['é'] c = false) ∧
    (applyRules (⟨FindPat.charClass ['é'], "e"⟩ :: baseRules) "café café".data
        = applyRules baseRules
            (applyRule ⟨FindPat.charClass ['é'], "e"⟩ "café café".data) ∧
      ∀ c ∈ applyRule ⟨FindPat.charClass ['é'], "e"⟩ "café café".data,
        List.contains ['é'] c = false) :=
  ⟨by decide,
    c2_amended ⟨FindPat.charClass ['é'], "e"⟩ baseRules "café café".data
      ['é'] "e" (by decide)⟩

/-- C3 counterexample: `"TOTAL DUE."` is a short line (10 < 80 characters)
ending in sentence punctuation, yet it IS classified as a heading, because
the all-caps test takes precedence and ignores terminal punctuation. -/
theorem c3_counterexample :
    endsPunct (jsTrimL "TOTAL DUE.".data) = true ∧
    (jsTrimL "TOTAL DUE.".data).length < 80 ∧
    convertToMarkdownLogic "TOTAL DUE.\nplease remit the full amount now."
      = serializeBlocks [MarkdownBlock.heading "TOTAL DUE.",
          MarkdownBlock.paragraph "please remit the full amount now."] := by
  exact ⟨rfl, by decide, rfl⟩

/-- C3 (amended): the input `"INVOICE"` followed by a blank line emits
`Heading("INVOICE")` with no separate blank block for the consumed blank
line; and a short line that ends in sentence punctuation AND is not an
all-caps line (as `"Page 1 of 10."` is not) is never classified as a
heading. -/
theorem c3_amended (line : List Char) (nextBlank : Bool)
    (h1 : endsPunct line = true) (h2 : isAllCapsLine line = false) :
    headingTest line nextBlank = false ∧
    convertToMarkdownLogic "INVOICE\n\nplease remit the amount."
      = serializeBlocks [MarkdownBlock.heading "INVOICE",
          MarkdownBlock.paragraph "please remit the amount."] := by
  refine ⟨?_, rfl⟩
  simp [headingTest, noPunctEnd, h1, h2]

/-- C3 witness: the heading test rejects `"Page 1 of 10."` whatever the
next line looks like, and the `"INVOICE"` scenario holds. -/
theorem c3_amended_witness :
    endsPunct "Page 1 of 10.".data = true ∧
    isAllCapsLine "Page 1 of 10.".data = false ∧
    (headingTest "Page 1 of 10.".data true = false ∧
      convertToMarkdownLogic "INVOICE\n\nplease remit the amount."
        = serializeBlocks [MarkdownBlock.heading "INVOICE",
            MarkdownBlock.paragraph "please remit the amount."]) :=
  ⟨by decide, by decide, c3_amended "Page 1 of 10.".data true (by decide) (by decide)⟩

end Extract2MD
